import Mathlib

set_option maxRecDepth 100000

/-!
Verification of the getter repository: a read-only HTTP API over a directory
of JSON files.  The Go source is shallowly embedded below: JSON values are a
mutual inductive (plain integer literals carried as `Int`, other number
literals as their lexeme; both pass through an exact binary64 model of
`strconv.ParseFloat` for Go's range check and `%v` formatting), Go maps are
association lists built by successive assignment (`goMapSet`), Go slices are
`Option (List α)` so that the nil slice and the empty slice stay distinct,
and the filesystem / environment are association lists passed explicitly.
-/

namespace Getter

/- A JSON value as read by the parser: null, bool, number (an integral
literal is kept exactly as `Int`, a fraction/exponent literal keeps its
lexeme in `dec`; decoding converts either to float64 below), string,
array, object.  Arrays and objects are separate mutual inductives so that
recursion over them is structural. -/
mutual
inductive JSON where
  | null
  | bool (b : Bool)
  | num (n : Int)
  | dec (lexeme : String)
  | str (s : String)
  | arr (elems : JList)
  | obj (members : JObj)

inductive JList where
  | nil
  | cons (hd : JSON) (tl : JList)

inductive JObj where
  | nil
  | cons (key : String) (val : JSON) (tl : JObj)
end

def JList.ofList : List JSON → JList
  | [] => .nil
  | v :: rest => .cons v (JList.ofList rest)

def JList.toList : JList → List JSON
  | .nil => []
  | .cons v rest => v :: rest.toList

def JObj.ofList : List (String × JSON) → JObj
  | [] => .nil
  | (k, v) :: rest => .cons k v (JObj.ofList rest)

def JObj.toList : JObj → List (String × JSON)
  | .nil => []
  | .cons k v rest => (k, v) :: rest.toList

/-- Byte-order comparison of strings (Go's `<` on strings; UTF-8 byte order
coincides with code-point order). -/
def lexLe : List Char → List Char → Bool
  | [], _ => true
  | _ :: _, [] => false
  | a :: as, b :: bs =>
    if a.toNat < b.toNat then true
    else if b.toNat < a.toNat then false
    else lexLe as bs

def strLe (a b : String) : Bool := lexLe a.data b.data

/-- Assigning `m[k] = v` on a Go map modelled as an association list with
unique keys: replace the binding if present, else append. -/
def goMapSet {α : Type} : List (String × α) → String → α → List (String × α)
  | [], k, v => [(k, v)]
  | q :: rest, k, v => if q.1 = k then (k, v) :: rest else q :: goMapSet rest k v

/-- Building a Go map by assigning the pairs in order (later duplicate keys
overwrite earlier ones, as `encoding/json` does when decoding objects). -/
def goMapOfList {α : Type} (l : List (String × α)) : List (String × α) :=
  l.foldl (fun m p => goMapSet m p.1 p.2) []

/-- Reading `m[k]` from a Go map: `some` value if the key is present. -/
def goMapGet {α : Type} (m : List (String × α)) (k : String) : Option α :=
  (m.find? (fun q => q.1 = k)).map (fun q => q.2)

/-- Insertion into a key-sorted association list (byte-order on keys). -/
def insertByKey {α : Type} (p : String × α) : List (String × α) → List (String × α)
  | [] => [p]
  | q :: rest => if strLe p.1 q.1 then p :: q :: rest else q :: insertByKey p rest

/-- Key-sort of an association list, as Go does when formatting or
marshalling a map (fmt and `encoding/json` both emit map keys sorted). -/
def sortByKey {α : Type} : List (String × α) → List (String × α)
  | [] => []
  | p :: rest => insertByKey p (sortByKey rest)

def joinSp : List String → String
  | [] => ""
  | [s] => s
  | s :: rest => s ++ " " ++ joinSp rest

/-! ## float64: every JSON number decodes through `strconv.ParseFloat`

`encoding/json` converts every number to a float64 (`convertNumber`), and
`fmt`'s `%v` prints a float64 with `strconv.FormatFloat(f, 'g', -1, 64)`:
the shortest decimal that parses back to the same float64, in plain form
when the decimal exponent is in [-4, 5] and in e-notation otherwise.
The exact binary64 value and its shortest decimal are computed below with
integer arithmetic. -/

def isDigit (c : Char) : Bool := 48 ≤ c.toNat && c.toNat ≤ 57

def digitsVal (l : List Char) : Nat :=
  l.foldl (fun a c => a * 10 + (c.toNat - 48)) 0

def bitLenF : Nat → Nat → Nat
  | 0, _ => 0
  | _ + 1, 0 => 0
  | f + 1, n => bitLenF f (n / 2) + 1

/-- Number of binary digits of `x` (fuel from the decimal digit count). -/
def bitLen (x : Nat) : Nat := bitLenF ((Nat.repr x).length * 4 + 8) x

/-- A binary64 value: zero, infinity (the overflow result that makes
`ParseFloat` report ErrRange), or a finite value `±M·2^E` with the 53-bit
mantissa `M` normalized into `[2^52, 2^53)` except for subnormals, which
have `E = -1074`. -/
inductive FloatRep where
  | zero (neg : Bool)
  | inf (neg : Bool)
  | finite (neg : Bool) (M : Nat) (E : Int)

def FloatRep.isInf : FloatRep → Bool
  | .inf _ => true
  | _ => false

/-- Round a positive integer to binary64 (round to nearest, ties to even;
exponent overflow gives infinity). -/
def roundPosInt (neg : Bool) (N : Nat) : FloatRep :=
  let p := bitLen N
  if p ≤ 53 then .finite neg (N * 2 ^ (53 - p)) (Int.ofNat p - 53)
  else
    let k := p - 53
    let q := N / 2 ^ k
    let r := N % 2 ^ k
    let half := 2 ^ (k - 1)
    let q2 := if half < r || (r = half && q % 2 = 1) then q + 1 else q
    let M := if q2 = 2 ^ 53 then 2 ^ 52 else q2
    let E : Int := if q2 = 2 ^ 53 then Int.ofNat k + 1 else Int.ofNat k
    if 972 ≤ E then .inf neg else .finite neg M E

/-- `floor(m · 2^(-E) / d)`. -/
def qAt (m d : Nat) (E : Int) : Nat :=
  if 0 ≤ E then m / (d * 2 ^ E.toNat) else (m * 2 ^ (-E).toNat) / d

/-- Adjust the binary exponent until the quotient has exactly 53 bits. -/
def normScale : Nat → Nat → Nat → Int → Int
  | 0, _, _, E => E
  | f + 1, m, d, E =>
    let q := qAt m d E
    if 2 ^ 53 ≤ q then normScale f m d (E + 1)
    else if q < 2 ^ 52 then normScale f m d (E - 1)
    else E

/-- Round a positive fraction `m / 10^k10` to binary64 (nearest, ties to
even, subnormals clamped to `E = -1074`, underflow to zero). -/
def roundFrac (neg : Bool) (m k10 : Nat) : FloatRep :=
  let d := 10 ^ k10
  let e0 : Int := Int.ofNat (bitLen m) - Int.ofNat (bitLen d) - 53
  let E1 := normScale 200 m d e0
  let E : Int := if E1 < -1074 then -1074 else E1
  let den := if 0 ≤ E then d * 2 ^ E.toNat else d
  let num := if 0 ≤ E then m else m * 2 ^ (-E).toNat
  let q := num / den
  let r := num % den
  let q2 := if den < 2 * r || (2 * r = den && q % 2 = 1) then q + 1 else q
  if q2 = 0 then .zero neg
  else
    let M := if q2 = 2 ^ 53 then 2 ^ 52 else q2
    let E2 := if q2 = 2 ^ 53 then E + 1 else E
    if 972 ≤ E2 then .inf neg else .finite neg M E2

/-- `strconv.ParseFloat` on the exact decimal `±m·10^e10`: magnitude
guards settle values far outside the binary64 range, the band in between
is rounded exactly. -/
def roundToFloat (neg : Bool) (m : Nat) (e10 : Int) : FloatRep :=
  if m = 0 then .zero neg
  else
    let nd : Int := Int.ofNat (Nat.repr m).length
    if 312 ≤ nd + e10 then .inf neg
    else if nd + e10 ≤ -340 then .zero neg
    else if 0 ≤ e10 then roundPosInt neg (m * 10 ^ e10.toNat)
    else roundFrac neg m (-e10).toNat

/-- `floor((a · 2^b) / 10^j)` with `b`, `j` of either sign. -/
def floorScaled (a : Nat) (b j : Int) : Nat :=
  (a * 2 ^ b.toNat * 10 ^ (-j).toNat) / (2 ^ (-b).toNat * 10 ^ j.toNat)

def ceilScaled (a : Nat) (b j : Int) : Nat :=
  let den := 2 ^ (-b).toNat * 10 ^ j.toNat
  (a * 2 ^ b.toNat * 10 ^ (-j).toNat + den - 1) / den

/-- Largest integer strictly below `(a · 2^b) / 10^j`. -/
def floorScaledPred (a : Nat) (b j : Int) : Nat :=
  let den := 2 ^ (-b).toNat * 10 ^ j.toNat
  (a * 2 ^ b.toNat * 10 ^ (-j).toNat - 1) / den

/-- The decimals `t·10^j` that `ParseFloat` maps back to the float
`M·2^E`: those in `(v - ulow/2, v + u/2)` where `u = 2^E` is the upper
ULP, the lower gap halves at a power of two, and the boundaries are
included exactly when `M` is even (ties to even). Returns the `t`
nearest to `v` (ties to even `t`) when one exists. -/
def pickT (M : Nat) (E : Int) (j : Int) : Option Nat :=
  let inc := M % 2 = 0
  let bLow := M = 2 ^ 52 && decide (-1074 < E)
  let Lm := if bLow then 4 * M - 1 else 2 * M - 1
  let LE := if bLow then E - 2 else E - 1
  let Um := 2 * M + 1
  let UE := E - 1
  let tLo := if inc then ceilScaled Lm LE j else floorScaled Lm LE j + 1
  let tHi := if inc then floorScaled Um UE j else floorScaledPred Um UE j
  if tLo ≤ tHi then
    let t0 := floorScaled M E j
    let c1 := max t0 tLo
    let c2 := min (t0 + 1) tHi
    if c1 = c2 || c2 < c1 then some c1
    else
      let lhs := M * 2 ^ (E + 1).toNat * 10 ^ (-j).toNat
      let rhs := (2 * t0 + 1) * 10 ^ j.toNat * 2 ^ (-(E + 1)).toNat
      if lhs < rhs then some t0
      else if rhs < lhs then some (t0 + 1)
      else some (if t0 % 2 = 0 then t0 else t0 + 1)
  else none

def searchJ : Nat → Nat → Int → Int → Option (Nat × Int)
  | 0, _, _, _ => none
  | f + 1, M, E, j =>
    match pickT M E j with
    | some t => some (t, j)
    | none => searchJ f M E (j - 1)

def stripZeros : Nat → Nat → Nat → Nat × Nat
  | 0, t, acc => (t, acc)
  | f + 1, t, acc => if t % 10 = 0 && 0 < t then stripZeros f (t / 10) (acc + 1) else (t, acc)

/-- Shortest decimal digits and decimal exponent for the finite float
`M·2^E` (`FormatFloat` shortest mode): the largest power of ten admitting
a round-tripping multiple, searched downward. -/
def shortestDigits (M : Nat) (E : Int) : String × Int :=
  let jmax : Int :=
    if 0 ≤ E then Int.ofNat (Nat.repr (M * 2 ^ E.toNat)).length else 17
  match searchJ 420 M E jmax with
  | some (t, j) =>
    let (t2, z) := stripZeros 60 t 0
    let ds := Nat.repr t2
    (ds, j + Int.ofNat z + Int.ofNat ds.length - 1)
  | none => ("0", 0)

/-- `%g` rendering of shortest digits: e-notation when the decimal
exponent is below -4 or at least 6, plain otherwise (with the exponent
printed to at least two digits). -/
def formatDigits (ds : String) (e10 : Int) : String :=
  if e10 < -4 || 6 ≤ e10 then
    let mant :=
      if ds.length = 1 then ds
      else String.mk (ds.data.take 1) ++ "." ++ String.mk (ds.data.drop 1)
    let ea := (if e10 < 0 then -e10 else e10).toNat
    let es := if ea < 10 then "0" ++ Nat.repr ea else Nat.repr ea
    mant ++ "e" ++ (if e10 < 0 then "-" else "+") ++ es
  else if Int.ofNat ds.length - 1 ≤ e10 then
    ds ++ String.mk (List.replicate (e10 + 1 - Int.ofNat ds.length).toNat '0')
  else if 0 ≤ e10 then
    String.mk (ds.data.take (e10 + 1).toNat) ++ "." ++ String.mk (ds.data.drop (e10 + 1).toNat)
  else
    "0." ++ String.mk (List.replicate (-e10 - 1).toNat '0') ++ ds

/-- `fmt`'s `%v` of a float64 value. -/
def formatFloatRep : FloatRep → String
  | .zero neg => if neg then "-0" else "0"
  | .inf neg => if neg then "-Inf" else "+Inf"
  | .finite neg M E =>
    let (ds, e10) := shortestDigits M E
    (if neg then "-" else "") ++ formatDigits ds e10

/-- `%v` of the float64 a JSON integer literal decodes to.  Magnitudes
below 10^6 sit in `%g`'s plain regime and print as their decimal digits;
larger values are rounded to binary64 and printed shortest (e-notation
from 1e+06 up, `+Inf` past the float64 range). -/
def goIntFmt (n : Int) : String :=
  if n = 0 then "0"
  else if n.natAbs < 1000000 then n.repr
  else formatFloatRep (roundToFloat (decide (n < 0)) n.natAbs 0)

/-- Exponent part of a number lexeme. -/
def expVal : List Char → Int
  | c :: t =>
    if c = 'e' || c = 'E' then
      match t with
      | '-' :: t2 => -Int.ofNat (digitsVal (t2.takeWhile isDigit))
      | '+' :: t2 => Int.ofNat (digitsVal (t2.takeWhile isDigit))
      | _ => Int.ofNat (digitsVal (t.takeWhile isDigit))
    else 0
  | [] => 0

/-- Sign, significand digits and effective decimal exponent of a number
lexeme `[-]digits[.digits][(e|E)[+|-]digits]`. -/
def decParts (l : List Char) : Bool × Nat × Int :=
  let neg : Bool := match l with | '-' :: _ => true | _ => false
  let l1 := if neg then l.drop 1 else l
  let ds := l1.takeWhile isDigit
  let r1 := l1.drop ds.length
  match r1 with
  | '.' :: t =>
    let fs := t.takeWhile isDigit
    let r2 := t.drop fs.length
    (neg, digitsVal (ds ++ fs), expVal r2 - Int.ofNat fs.length)
  | _ => (neg, digitsVal ds, expVal r1)

/-- `%v` of the float64 a fraction/exponent number lexeme decodes to. -/
def goDecFmt (s : String) : String :=
  match decParts s.data with
  | (neg, m, e10) => formatFloatRep (roundToFloat neg m e10)

/-- The `ParseFloat` range check `convertNumber` applies: an integer
literal overflows when it rounds to infinity. -/
def numOverflow (n : Int) : Bool :=
  (roundToFloat (decide (n < 0)) n.natAbs 0).isInf

def decOverflow (s : String) : Bool :=
  match decParts s.data with
  | (neg, m, e10) => (roundToFloat neg m e10).isInf

/- `fmt.Sprintf("%v", x)` on a decoded JSON value: nil prints `<nil>`,
bools `true`/`false`, float64 values shortest per `%g`, strings verbatim,
slices space-separated in brackets, maps key-sorted as `map[k:v ...]`. -/
mutual
def goFmtV : JSON → String
  | .null => "<nil>"
  | .bool b => if b then "true" else "false"
  | .num n => goIntFmt n
  | .dec s => goDecFmt s
  | .str s => s
  | .arr es => "[" ++ joinSp (goFmtL es) ++ "]"
  | .obj ms =>
      "map[" ++
        joinSp ((sortByKey (goMapOfList (goFmtO ms))).map
          (fun p => p.1 ++ ":" ++ p.2)) ++ "]"

def goFmtL : JList → List String
  | .nil => []
  | .cons v rest => goFmtV v :: goFmtL rest

def goFmtO : JObj → List (String × String)
  | .nil => []
  | .cons k v rest => (k, goFmtV v) :: goFmtO rest
end

/-- `fmt.Sprintf("%v", x)` where `x : interface\x7b\x7d` may be the nil
interface (absent map key): nil prints `<nil>`. -/
def goFormat : Option JSON → String
  | none => "<nil>"
  | some v => goFmtV v

/-! ## The JSON parser (syntactic validity as checked by `json.Unmarshal`) -/

def isWS (c : Char) : Bool := c = ' ' || c = '\t' || c = '\n' || c = '\r'

def skipWS : List Char → List Char
  | [] => []
  | c :: rest => if isWS c then skipWS rest else c :: rest

def hexVal (c : Char) : Option Nat :=
  if 48 ≤ c.toNat && c.toNat ≤ 57 then some (c.toNat - 48)
  else if 97 ≤ c.toNat && c.toNat ≤ 102 then some (c.toNat - 87)
  else if 65 ≤ c.toNat && c.toNat ≤ 70 then some (c.toNat - 55)
  else none

/-- Body of a JSON string literal, after the opening quote: ordinary
characters (control characters below 0x20 are rejected, as Go rejects
them), the standard escapes, and `\uXXXX`. Returns the decoded string and
the input remaining after the closing quote. -/
def strBody : List Char → String → Option (String × List Char)
  | [], _ => none
  | '\"' :: rest, acc => some (acc, rest)
  | '\\' :: e :: rest, acc =>
    if e = '\"' then strBody rest (acc.push '\"')
    else if e = '\\' then strBody rest (acc.push '\\')
    else if e = '/' then strBody rest (acc.push '/')
    else if e = 'b' then strBody rest (acc.push (Char.ofNat 8))
    else if e = 'f' then strBody rest (acc.push (Char.ofNat 12))
    else if e = 'n' then strBody rest (acc.push '\n')
    else if e = 'r' then strBody rest (acc.push '\r')
    else if e = 't' then strBody rest (acc.push '\t')
    else if e = 'u' then
      match rest with
      | h1 :: h2 :: h3 :: h4 :: rest2 =>
        match hexVal h1, hexVal h2, hexVal h3, hexVal h4 with
        | some a, some b, some c, some d =>
            strBody rest2 (acc.push (Char.ofNat (((a * 16 + b) * 16 + c) * 16 + d)))
        | _, _, _, _ => none
      | _ => none
    else none
  | '\\' :: [], _ => none
  | c :: rest, acc => if c.toNat < 32 then none else strBody rest (acc.push c)

/-- An optional exponent part: returns its lexeme (or `none` when absent)
and the remaining input; fails when `e`/`E` is present without digits. -/
def parseExp (l : List Char) : Option (Option (List Char) × List Char) :=
  match l with
  | c :: t =>
    if c = 'e' || c = 'E' then
      match t with
      | s :: t2 =>
        if s = '+' || s = '-' then
          let es := t2.takeWhile isDigit
          if es.isEmpty then none
          else some (some (c :: s :: es), t2.drop es.length)
        else
          let es := t.takeWhile isDigit
          if es.isEmpty then none
          else some (some (c :: es), t.drop es.length)
      | [] => none
    else some (none, l)
  | [] => some (none, [])

/-- A JSON number per the JSON grammar (optional minus, no leading zeros,
optional fraction, optional exponent). Plain integer literals become `num`;
a literal with a fraction or exponent becomes `dec` carrying its lexeme. -/
def parseNum (l : List Char) : Option (JSON × List Char) :=
  let neg : Bool := match l with | '-' :: _ => true | _ => false
  let l1 := if neg then l.drop 1 else l
  let ds := l1.takeWhile isDigit
  let r1 := l1.drop ds.length
  if ds.isEmpty then none
  else if 1 < ds.length && ds.head? = some '0' then none
  else
    match r1 with
    | '.' :: t =>
      let fs := t.takeWhile isDigit
      if fs.isEmpty then none
      else
        match parseExp (t.drop fs.length) with
        | none => none
        | some (ex, r2) =>
          let lex := (if neg then ['-'] else []) ++ ds ++ '.' :: fs ++ ex.getD []
          some (.dec (String.mk lex), r2)
    | _ =>
      match parseExp r1 with
      | none => none
      | some (none, r2) =>
        let v : Int := Int.ofNat (digitsVal ds)
        if neg && v = 0 then some (.dec (String.mk ('-' :: ds)), r2)
        else some (.num (if neg then -v else v), r2)
      | some (some ex, r2) =>
        let lex := (if neg then ['-'] else []) ++ ds ++ ex
        some (.dec (String.mk lex), r2)

/- Recursive-descent JSON value parser, fuelled (each recursive call burns
one unit; the top-level entry point supplies ample fuel). Expects its input
without leading whitespace and returns the remaining input. -/
mutual
def pVal : Nat → List Char → Option (JSON × List Char)
  | 0, _ => none
  | Nat.succ fu, l =>
    match l with
    | [] => none
    | c :: rest =>
      if c = 'n' then
        match rest with
        | 'u' :: 'l' :: 'l' :: r => some (.null, r)
        | _ => none
      else if c = 't' then
        match rest with
        | 'r' :: 'u' :: 'e' :: r => some (.bool true, r)
        | _ => none
      else if c = 'f' then
        match rest with
        | 'a' :: 'l' :: 's' :: 'e' :: r => some (.bool false, r)
        | _ => none
      else if c = '\"' then
        match strBody rest "" with
        | some (s, r) => some (.str s, r)
        | none => none
      else if c = '[' then
        match skipWS rest with
        | ']' :: r2 => some (.arr .nil, r2)
        | r1 =>
          match pArr fu r1 with
          | some (es, r2) => some (.arr (JList.ofList es), r2)
          | none => none
      else if c = '\x7b' then
        match skipWS rest with
        | '\x7d' :: r2 => some (.obj .nil, r2)
        | r1 =>
          match pObj fu r1 with
          | some (ms, r2) => some (.obj (JObj.ofList ms), r2)
          | none => none
      else if c = '-' || isDigit c then parseNum l
      else none

def pArr : Nat → List Char → Option (List JSON × List Char)
  | 0, _ => none
  | Nat.succ fu, l =>
    match pVal fu l with
    | none => none
    | some (v, r) =>
      match skipWS r with
      | ',' :: r2 =>
        match pArr fu (skipWS r2) with
        | some (es, r3) => some (v :: es, r3)
        | none => none
      | ']' :: r2 => some ([v], r2)
      | _ => none

def pObj : Nat → List Char → Option (List (String × JSON) × List Char)
  | 0, _ => none
  | Nat.succ fu, l =>
    match l with
    | '\"' :: r =>
      match strBody r "" with
      | none => none
      | some (k, r1) =>
        match skipWS r1 with
        | ':' :: r2 =>
          match pVal fu (skipWS r2) with
          | none => none
          | some (v, r3) =>
            match skipWS r3 with
            | ',' :: r4 =>
              match pObj fu (skipWS r4) with
              | some (ms, r5) => some ((k, v) :: ms, r5)
              | none => none
            | '\x7d' :: r4 => some ([(k, v)], r4)
            | _ => none
        | _ => none
    | _ => none
end

/-- `json.Unmarshal`'s syntactic check: exactly one JSON value, surrounded
by optional whitespace. `some v` on success, `none` on a parse error. -/
def parseJSON (s : String) : Option JSON :=
  match pVal (2 * s.data.length + 4) (skipWS s.data) with
  | some (v, r) => if (skipWS r).isEmpty then some v else none
  | none => none

/-! ## Decoding into `map[string][]map[string]interface\x7b\x7d` -/

/-- A Go slice: `none` is the nil slice, distinct from the empty slice. -/
abbrev GoSlice (α : Type) := Option (List α)

def goSliceLen {α : Type} : GoSlice α → Nat
  | none => 0
  | some l => l.length

def goSliceList {α : Type} : GoSlice α → List α
  | none => []
  | some l => l

/-- `append(s, x)` on a Go slice. -/
def goAppend {α : Type} (s : GoSlice α) (x : α) : GoSlice α :=
  match s with
  | none => some [x]
  | some l => some (l ++ [x])

/-- One record, `map[string]interface\x7b\x7d`: `none` is the nil map that
`json.Unmarshal` produces from the JSON literal null. -/
abbrev Record := Option (List (String × JSON))

/- `convertNumber` runs on every number a decode materializes as
`interface\x7b\x7d`: the whole `Unmarshal` fails when any such number
literal overflows float64 (`strconv.ParseFloat` ErrRange). -/
mutual
def numbersOK : JSON → Bool
  | .num n => !numOverflow n
  | .dec s => !decOverflow s
  | .arr es => numbersOKL es
  | .obj ms => numbersOKO ms
  | _ => true

def numbersOKL : JList → Bool
  | .nil => true
  | .cons v rest => numbersOK v && numbersOKL rest

def numbersOKO : JObj → Bool
  | .nil => true
  | .cons _ v rest => numbersOK v && numbersOKO rest
end

/-- `json.Unmarshal` of one array element into `map[string]interface\x7b\x7d`:
null gives the nil map, an object gives a map built by successive
assignment with every embedded number range-checked by `convertNumber`,
anything else is a type error. -/
def unmarshalRecord : JSON → Option Record
  | .null => some none
  | .obj ms => if numbersOKO ms then some (some (goMapOfList ms.toList)) else none
  | _ => none

def unmarshalElems : List JSON → Option (List Record)
  | [] => some []
  | v :: rest =>
    match unmarshalRecord v, unmarshalElems rest with
    | some r, some rs => some (r :: rs)
    | _, _ => none

/-- `json.Unmarshal` of a member value into `[]map[string]interface\x7b\x7d`:
null gives the nil slice, an array decodes element-wise, anything else is a
type error. -/
def unmarshalSlice : JSON → Option (GoSlice Record)
  | .null => some none
  | .arr es =>
    match unmarshalElems es.toList with
    | some rs => some (some rs)
    | none => none
  | _ => none

def unmarshalMembers : List (String × JSON) → Option (List (String × GoSlice Record))
  | [] => some []
  | (k, v) :: rest =>
    match unmarshalSlice v, unmarshalMembers rest with
    | some s, some ms => some ((k, s) :: ms)
    | _, _ => none

/-- The decoded file, `map[string][]map[string]interface\x7b\x7d`: `none` is
the nil map produced from a top-level null. -/
abbrev FileData := Option (List (String × GoSlice Record))

/-- `json.Unmarshal(fileContent, &fileData)` after the syntactic parse:
null gives the nil map, an object decodes member-wise (duplicate keys
overwritten as in a Go map), anything else is a type error. -/
def unmarshalFileData : JSON → Option FileData
  | .null => some none
  | .obj ms =>
    match unmarshalMembers ms.toList with
    | some l => some (some (goMapOfList l))
    | none => none
  | _ => none

/- `json.Marshal` / `Encoder.Encode` viewed at the JSON-value level: object
keys are emitted sorted (and duplicate keys collapsed as a Go map would) at
every level; everything else is kept. -/
mutual
def jsonEncode : JSON → JSON
  | .obj ms => .obj (JObj.ofList (sortByKey (goMapOfList (encodeO ms))))
  | .arr es => .arr (encodeL es)
  | v => v

def encodeL : JList → JList
  | .nil => .nil
  | .cons v rest => .cons (jsonEncode v) (encodeL rest)

def encodeO : JObj → List (String × JSON)
  | .nil => []
  | .cons k v rest => (k, jsonEncode v) :: encodeO rest
end

/-- Encoding a `map[string]interface\x7b\x7d` response body. -/
def encodeRecordOut (ms : List (String × JSON)) : JSON :=
  jsonEncode (.obj (JObj.ofList ms))

/-! ## Errors, filesystem, handlers -/

inductive AppErr where
  | badRequest (msg : String)
  | fileNotFound (path : String)
  | invalidJSON (file : String)
  | dirStatError
  | dirNotExist
deriving DecidableEq

/-- The data directory's files: path → byte content. -/
abbrev FileSys := List (String × String)

def fsRead (fs : FileSys) (p : String) : Option String := goMapGet fs p

/-- `strings.HasSuffix(s, suffix)`, translated literally. -/
def goHasSuffix (s suff : String) : Bool :=
  suff.data.length ≤ s.data.length &&
    s.data.drop (s.data.length - suff.data.length) == suff.data

/-- The `.json`-appending normalization done inline by both handlers and by
`getRecords`. -/
def withJSONExt (s : String) : String :=
  if goHasSuffix s ".json" then s else s ++ ".json"

/-- `filepath.Join(dir, name)` for a separator-free `name` (the `Clean`
normalization is a no-op on such inputs and is not modelled). -/
def joinPath (dir name : String) : String := dir ++ "/" ++ name

/-- The path `getRecords` passes to `os.Stat` and `os.ReadFile`. -/
def getRecordsPath (fp : String) : String := withJSONExt fp

/-- `getRecords`: enforce the `.json` extension, then stat and read the
file (`os.IsNotExist` → error; the read itself is modelled as the stored
content). -/
def getRecords (fs : FileSys) (fp : String) : Except AppErr String :=
  match fsRead fs (getRecordsPath fp) with
  | none => .error (.fileNotFound (getRecordsPath fp))
  | some content => .ok content

/-- `json.Unmarshal(fileContent, &records)` for `records : interface\x7b\x7d`:
the syntactic parse plus `convertNumber`'s float64 range check on every
number in the document. -/
def unmarshalAny (content : String) : Option JSON :=
  match parseJSON content with
  | some v => if numbersOK v then some v else none
  | none => none

/-- Handler `getFileRecords`: extract the filename, append `.json` if
absent, join with the data path, read, check the bytes decode as JSON
(`json.Unmarshal` into `interface\x7b\x7d`), and return the raw bytes
unchanged. -/
def getFileRecords (fs : FileSys) (dataPath filename : String) : Except AppErr String :=
  if filename = "" then .error (.badRequest "Missing file name")
  else
    let filename := withJSONExt filename
    let filePath := joinPath dataPath filename
    match getRecords fs filePath with
    | .error e => .error e
    | .ok fileContent =>
      match unmarshalAny fileContent with
      | none => .error (.invalidJSON filename)
      | some _ => .ok fileContent

/-- The first loop of `getFileRecordByID` (lines 151-158): range over the
decoded map and take the first member whose slice has positive length. -/
def findCollection : List (String × GoSlice Record) → Option (List Record)
  | [] => none
  | (_, value) :: rest =>
    if 0 < goSliceLen value then some (goSliceList value) else findCollection rest

/-- `record["id"]` (reading a nil map yields the zero value, nil). -/
def recGet (r : Record) (k : String) : Option JSON :=
  match r with
  | none => none
  | some ms => goMapGet ms k

/-- `fmt.Sprintf("%v", record["id"])`. -/
def recordID (r : Record) : String := goFormat (recGet r "id")

/-- The second loop of `getFileRecordByID` (lines 169-176): first record
whose stringified id equals the requested id. -/
def findMatch (records : List Record) (id : String) : Option Record :=
  match records with
  | [] => none
  | r :: rest => if recordID r = id then some r else findMatch rest id

/-- Lines 178-181: a nil `matchedRecord` (no match, or a matched nil
record) is replaced by a fresh empty map. -/
def matchedOutput : Option Record → List (String × JSON)
  | none => []
  | some none => []
  | some (some ms) => ms

/-- `getFileRecordByID` after a successful decode, over the decoded members
in iteration order: select the collection, search it, encode the result. -/
def recordByIDCore (fd : List (String × GoSlice Record)) (id : String) : JSON :=
  match findCollection fd with
  | none => JSON.obj JObj.nil
  | some records => encodeRecordOut (matchedOutput (findMatch records id))

/-- Parse + typed decode of the file content. -/
def fileDataOf (content : String) : Option FileData :=
  match parseJSON content with
  | none => none
  | some v => unmarshalFileData v

/-- Handler `getFileRecordByID` (part_006 lines 108-190). The error wrap
`"error reading file %s"` around a `getRecords` failure adds message text
only and is not modelled. -/
def getFileRecordByID (fs : FileSys) (dataPath filename id : String) :
    Except AppErr JSON :=
  if filename = "" then .error (.badRequest "Missing file name")
  else if id = "" then .error (.badRequest "Missing record ID")
  else
    let filename := withJSONExt filename
    let filePath := joinPath dataPath filename
    match getRecords fs filePath with
    | .error e => .error e
    | .ok fileContent =>
      match parseJSON fileContent with
      | none => .error (.invalidJSON filename)
      | some v =>
        match unmarshalFileData v with
        | none => .error (.invalidJSON filename)
        | some fd => .ok (recordByIDCore (fd.getD []) id)

/-! ## Directory listing and the listing endpoint -/

structure DirEntry where
  name : String
  isDir : Bool

/-- What `os.Stat` + `ReadDir` observe at a path: missing, a plain file, or
a directory with its immediate entries. -/
inductive PathNode where
  | missing
  | file
  | dir (entries : List DirEntry)

/-- `files.ListFilesInDirectory`: stat (missing → the stat error, not a
directory → `os.ErrNotExist`), then keep the names of non-directory
entries, appending to a nil slice. -/
def ListFilesInDirectory (d : PathNode) : Except AppErr (GoSlice String) :=
  match d with
  | .missing => .error .dirStatError
  | .file => .error .dirNotExist
  | .dir entries =>
    .ok (entries.foldl (fun files e => if e.isDir then files else goAppend files e.name) none)

/-- `json.Marshal` of a `[]string`: the nil slice marshals to null. -/
def encodeGoSliceStr : GoSlice String → JSON
  | none => JSON.null
  | some l => JSON.arr (JList.ofList (l.map JSON.str))

/-- Handler `home`: list the data directory and encode
`\x7bstatus, files, count\x7d` (a Go map, so keys are emitted sorted). -/
def home (d : PathNode) : Except AppErr JSON :=
  match ListFilesInDirectory d with
  | .error e => .error e
  | .ok fileList =>
    .ok (jsonEncode (JSON.obj (JObj.ofList
      [("status", JSON.str "success"),
       ("files", encodeGoSliceStr fileList),
       ("count", JSON.num (Int.ofNat (goSliceLen fileList)))])))

/-! ## Port resolution -/

/-- The process environment: the variables that are set (possibly to ""). -/
abbrev Env := List (String × String)

def lookupEnv (env : Env) (k : String) : Option String := goMapGet env k

/-- `os.Getenv`: the empty string when the variable is unset. -/
def osGetenv (env : Env) (k : String) : String := (lookupEnv env k).getD ""

/-- `godotenv.Load()`: `none` models a load error (no `.env` file); on
success each pair from the file is set only when the variable is not
already present in the environment (godotenv does not override). -/
def godotenvLoad (env : Env) (dotenvFile : Option Env) : Option Env :=
  match dotenvFile with
  | none => none
  | some kvs =>
    some (kvs.foldl
      (fun e p => if (lookupEnv e p.1).isSome then e else e ++ [(p.1, p.2)]) env)

/-- `getPort` (envvars.go lines 16-35). -/
def getPort (env : Env) (dotenvFile : Option Env) : String :=
  let port := osGetenv env "GETTER_PORT"
  if port ≠ "" then port
  else
    match godotenvLoad env dotenvFile with
    | some env2 =>
      let port2 := osGetenv env2 "GETTER_PORT"
      if port2 ≠ "" then port2 else ":8080"
    | none => ":8080"

/-! ## Spec-side shape predicates and concrete fixtures -/

def isObjV : JSON → Bool
  | .obj _ => true
  | _ => false

def allObjs : JList → Bool
  | .nil => true
  | .cons v rest => isObjV v && allObjs rest

def isArrOfObjs : JSON → Bool
  | .arr es => allObjs es
  | _ => false

def specMembers : JObj → Bool
  | .nil => true
  | .cons _ v rest => isArrOfObjs v && specMembers rest

/-- Modelled from the spec: "a JSON object each of whose member values is
an array of JSON objects" — the shape the spec says `GetRecordByID`
requires, stated literally for comparison with what the code's decode step
actually accepts. -/
def specShape : JSON → Bool
  | .obj ms => specMembers ms
  | _ => false

def lenientRecordOK : JSON → Bool
  | .null => true
  | .obj _ => true
  | _ => false

def lenientElems : JList → Bool
  | .nil => true
  | .cons v rest => lenientRecordOK v && lenientElems rest

def lenientSliceOK : JSON → Bool
  | .null => true
  | .arr es => lenientElems es
  | _ => false

def lenientMembers : JObj → Bool
  | .nil => true
  | .cons _ v rest => lenientSliceOK v && lenientMembers rest

/-- The shape `json.Unmarshal` into
`map[string][]map[string]interface\x7b\x7d` actually accepts: the spec's
object-of-arrays-of-objects, except that the JSON literal null is also
accepted in place of the object, of any member's array, and of any array
element. -/
def lenientShape : JSON → Bool
  | .null => true
  | .obj ms => lenientMembers ms
  | _ => false

def elemNumbersOK : JSON → Bool
  | .obj ms => numbersOKO ms
  | _ => true

def sliceElemsOK : JList → Bool
  | .nil => true
  | .cons v rest => elemNumbersOK v && sliceElemsOK rest

def sliceNumbersOK : JSON → Bool
  | .arr es => sliceElemsOK es
  | _ => true

def membersNumbersOK : JObj → Bool
  | .nil => true
  | .cons _ v rest => sliceNumbersOK v && membersNumbersOK rest

/-- The float64 range condition the typed decode imposes: every number
inside a record object (the positions decoded as `interface\x7b\x7d`) is
within float64 range.  Positions that are not record objects carry no
constraint here — they are already settled by the shape predicate. -/
def recordsNumbersOK : JSON → Bool
  | .obj ms => membersNumbersOK ms
  | _ => true

def acceptedElem : JSON → Bool
  | .null => true
  | .obj ms => numbersOKO ms
  | _ => false

def acceptedElems : JList → Bool
  | .nil => true
  | .cons v rest => acceptedElem v && acceptedElems rest

def acceptedSlice : JSON → Bool
  | .null => true
  | .arr es => acceptedElems es
  | _ => false

def acceptedMembers : JObj → Bool
  | .nil => true
  | .cons _ v rest => acceptedSlice v && acceptedMembers rest

/-- Exactly what `json.Unmarshal` into
`map[string][]map[string]interface\x7b\x7d` accepts: the null-lenient
shape with every record-embedded number within float64 range. -/
def acceptedShape : JSON → Bool
  | .null => true
  | .obj ms => acceptedMembers ms
  | _ => false

/-- The spec's example file content
`\x7b"items":[\x7b"id":1,"name":"a"\x7d,\x7b"id":2,"name":"b"\x7d]\x7d`. -/
def itemsContent : String :=
  "\x7b\"items\":[\x7b\"id\":1,\"name\":\"a\"\x7d,\x7b\"id\":2,\"name\":\"b\"\x7d]\x7d"

/-- A one-file data directory holding the spec's example. -/
def itemsFS : FileSys := [("data/items.json", itemsContent)]

/-! ## Helper lemmas: string suffixes and path normalization -/

/-- The final path component: the characters after the last `/`. -/
def lastComponent (s : String) : String :=
  String.mk ((s.data.reverse.takeWhile (fun c => !(c = '/'))).reverse)

theorem goHasSuffix_of_data {s t : String} (x : List Char) (h : s.data = x ++ t.data) :
    goHasSuffix s t = true := by
  simp only [goHasSuffix, h, List.length_append, Nat.add_sub_cancel,
    List.drop_left, Bool.and_eq_true, decide_eq_true_eq, beq_self_eq_true, and_true]
  exact Nat.le_add_left _ _

theorem goHasSuffix_append (s t : String) : goHasSuffix (s ++ t) t = true :=
  goHasSuffix_of_data s.data (by simp)

theorem data_of_goHasSuffix {s t : String} (h : goHasSuffix s t = true) :
    ∃ x, s.data = x ++ t.data := by
  simp only [goHasSuffix, Bool.and_eq_true, beq_iff_eq] at h
  exact ⟨s.data.take (s.data.length - t.data.length),
    by conv_lhs => rw [← List.take_append_drop (s.data.length - t.data.length) s.data, h.2]⟩

theorem withJSONExt_hasSuffix (s : String) : goHasSuffix (withJSONExt s) ".json" = true := by
  unfold withJSONExt
  by_cases h : goHasSuffix s ".json" = true
  · simp [h]
  · simp [Bool.not_eq_true] at h
    simp [h, goHasSuffix_append]

theorem lastComponent_hasSuffix {s : String} (h : goHasSuffix s ".json" = true) :
    goHasSuffix (lastComponent s) ".json" = true := by
  obtain ⟨x, hx⟩ := data_of_goHasSuffix h
  apply goHasSuffix_of_data
    ((x.reverse.takeWhile (fun c => !(c = '/'))).reverse) (t := ".json")
  show ((s.data.reverse.takeWhile (fun c => !(c = '/'))).reverse) = _
  rw [hx]
  show ((x ++ ['.', 'j', 's', 'o', 'n']).reverse.takeWhile (fun c => !(c = '/'))).reverse = _
  rw [List.reverse_append]
  show (('n' :: 'o' :: 's' :: 'j' :: '.' :: x.reverse).takeWhile
    (fun c => !(c = '/'))).reverse = _
  simp only [List.takeWhile_cons, decide_eq_true_eq]
  norm_num
  rfl

/-- C6: filename normalization is idempotent — appending `.json` when the
suffix is absent yields a fixed point of the normalization, so requesting
`foo` and `foo.json` resolve to the same joined file path, and the path
`getRecords` hands to the filesystem always has a final component ending in
`.json`. -/
theorem C6_normalization_idempotent :
    (∀ s, withJSONExt (withJSONExt s) = withJSONExt s)
    ∧ (∀ d s, goHasSuffix s ".json" = false →
        joinPath d (withJSONExt s) = joinPath d (withJSONExt (s ++ ".json")))
    ∧ (∀ fp, goHasSuffix (getRecordsPath fp) ".json" = true)
    ∧ (∀ fp, goHasSuffix (lastComponent (getRecordsPath fp)) ".json" = true) := by
  refine ⟨fun s => ?_, fun d s h => ?_, fun fp => withJSONExt_hasSuffix fp,
    fun fp => lastComponent_hasSuffix (withJSONExt_hasSuffix fp)⟩
  · conv_lhs => rw [withJSONExt]
    rw [if_pos (withJSONExt_hasSuffix s)]
  · have h1 : withJSONExt s = s ++ ".json" := by rw [withJSONExt, if_neg (by simp [h])]
    have h2 : withJSONExt (s ++ ".json") = s ++ ".json" := by
      rw [withJSONExt, if_pos (goHasSuffix_append s ".json")]
    rw [h1, h2]

/-- Witness for C6 at `foo` / `foo.json` and a concrete read path. -/
theorem C6_normalization_idempotent_witness :
    withJSONExt (withJSONExt "foo") = withJSONExt "foo"
    ∧ joinPath "data" (withJSONExt "foo") = joinPath "data" (withJSONExt ("foo" ++ ".json"))
    ∧ goHasSuffix (lastComponent (getRecordsPath "data/foo")) ".json" = true :=
  ⟨C6_normalization_idempotent.1 "foo",
   C6_normalization_idempotent.2.1 "data" "foo" (by decide),
   C6_normalization_idempotent.2.2.2 "data/foo"⟩

/-! ## Helper lemmas: collection selection and record matching -/

theorem findCollection_all_zero {fd : List (String × GoSlice Record)}
    (h : ∀ p ∈ fd, goSliceLen p.2 = 0) : findCollection fd = none := by
  induction fd with
  | nil => rfl
  | cons p rest ih =>
    obtain ⟨k, v⟩ := p
    have hv : goSliceLen v = 0 := h (k, v) (List.mem_cons_self _ _)
    rw [findCollection, if_neg (by omega)]
    exact ih (fun q hq => h q (List.mem_cons_of_mem _ hq))

theorem findCollection_first {pre rest : List (String × GoSlice Record)}
    {k : String} {v : GoSlice Record}
    (hpre : ∀ p ∈ pre, goSliceLen p.2 = 0) (hv : 0 < goSliceLen v) :
    findCollection (pre ++ (k, v) :: rest) = some (goSliceList v) := by
  induction pre with
  | nil => rw [List.nil_append, findCollection, if_pos hv]
  | cons p pre ih =>
    obtain ⟨k', v'⟩ := p
    have hv' : goSliceLen v' = 0 := hpre (k', v') (List.mem_cons_self _ _)
    rw [List.cons_append, findCollection, if_neg (by omega)]
    exact ih (fun q hq => hpre q (List.mem_cons_of_mem _ hq))

theorem findMatch_eq_none {records : List Record} {id : String}
    (h : ∀ r ∈ records, recordID r ≠ id) : findMatch records id = none := by
  induction records with
  | nil => rfl
  | cons r rest ih =>
    rw [findMatch, if_neg (h r (List.mem_cons_self _ _))]
    exact ih (fun q hq => h q (List.mem_cons_of_mem _ hq))

/-- The pipeline steps of `getFileRecordByID` on a successfully decoded
file. -/
theorem getFileRecordByID_ok {fs : FileSys} {dataPath name id content : String}
    {v : JSON} {fd : FileData}
    (hname : ¬name = "") (hid : ¬id = "")
    (hrec : getRecords fs (joinPath dataPath (withJSONExt name)) = .ok content)
    (hparse : parseJSON content = some v)
    (hunm : unmarshalFileData v = some fd) :
    getFileRecordByID fs dataPath name id = .ok (recordByIDCore (fd.getD []) id) := by
  rw [getFileRecordByID, if_neg hname, if_neg hid]
  simp only [hrec, hparse, hunm]

/-- C1: on a decoded object of arrays of records, presented in the map's
(unspecified) iteration order, the handler's selection takes the FIRST
member with a non-empty array — the result is what it would be on that one
member alone, so no other member is merged in or inspected — and when
every member's array is empty the result is the empty JSON object, with no
error. -/
theorem C1_first_nonempty_selection :
    (∀ (pre : List (String × GoSlice Record)) (k : String) (v : GoSlice Record)
        (rest : List (String × GoSlice Record)) (id : String),
      (∀ p ∈ pre, goSliceLen p.2 = 0) → 0 < goSliceLen v →
      recordByIDCore (pre ++ (k, v) :: rest) id = recordByIDCore [(k, v)] id)
    ∧ (∀ (fd : List (String × GoSlice Record)) (id : String),
        (∀ p ∈ fd, goSliceLen p.2 = 0) → recordByIDCore fd id = JSON.obj JObj.nil)
    ∧ (∀ (fs : FileSys) (dataPath name id content : String) (v : JSON) (fd : FileData),
        ¬name = "" → ¬id = "" →
        getRecords fs (joinPath dataPath (withJSONExt name)) = .ok content →
        parseJSON content = some v → unmarshalFileData v = some fd →
        getFileRecordByID fs dataPath name id = .ok (recordByIDCore (fd.getD []) id)) := by
  refine ⟨fun pre k v rest id hpre hv => ?_, fun fd id h => ?_,
    fun fs d n i c v fd hn hi hr hp hu => getFileRecordByID_ok hn hi hr hp hu⟩
  · rw [recordByIDCore, findCollection_first hpre hv, recordByIDCore,
      findCollection, if_pos hv]
  · rw [recordByIDCore, findCollection_all_zero h]

/-- Witness for C1: a non-empty second member is selected over an empty
first one and a later member is ignored; an all-empty object yields `\x7b\x7d`. -/
theorem C1_first_nonempty_selection_witness :
    recordByIDCore [("e", some []), ("k", some [some [("id", JSON.num 1)]]),
        ("z", some [some [("id", JSON.num 2)]])] "1"
      = recordByIDCore [("k", some [some [("id", JSON.num 1)]])] "1"
    ∧ recordByIDCore [("a", none), ("b", some [])] "1" = JSON.obj JObj.nil
    ∧ getFileRecordByID itemsFS "data" "items" "2"
      = .ok (recordByIDCore ((some [("items",
          some [some [("id", JSON.num 1), ("name", JSON.str "a")],
                some [("id", JSON.num 2), ("name", JSON.str "b")]])] : FileData).getD []) "2") :=
  ⟨C1_first_nonempty_selection.1 [("e", some [])] "k" (some [some [("id", JSON.num 1)]])
      [("z", some [some [("id", JSON.num 2)]])] "1" (by decide) (by decide),
   C1_first_nonempty_selection.2.1 [("a", none), ("b", some [])] "1" (by decide),
   C1_first_nonempty_selection.2.2 itemsFS "data" "items" "2" itemsContent _ _
      (by decide) (by decide) rfl rfl rfl⟩

/-- C2 as stated is false: ids are stringified through float64 `%v`
formatting, so a record with numeric id 1000000 stringifies to `1e+06`,
not to the digit string `1000000`, and does not match the requested id
`"1000000"`. -/
theorem C2_counterexample_million_id :
    recordID (some [("id", JSON.num 1000000)]) = "1e+06"
    ∧ recordID (some [("id", JSON.str "1000000")]) = "1000000"
    ∧ ("1e+06" : String) ≠ "1000000"
    ∧ findMatch [some [("id", JSON.num 1000000)]] "1000000" = none :=
  ⟨rfl, rfl, by decide, rfl⟩

/-- C2 amended: within the chosen collection the handler returns the first
record whose `id`, stringified with `%v`, equals the requested id exactly;
ids pass through float64, so a numeric id and the string id carrying the
same digits stringify identically exactly in the plain-format regime
(at most six decimal digits): integral ids of seven or more digits print
in e-notation (1000000 prints 1e+06) and integral ids beyond 2^53 are
rounded first (9007199254740993 prints as 9007199254740992 does).  On the
spec's example file requesting `"2"` returns `\x7b"id":2,"name":"b"\x7d`. -/
theorem C2_first_match_float64_stringified :
    (∀ (records : List Record) (id : String),
      findMatch records id = records.find? (fun r => recordID r == id))
    ∧ (∀ (n : Int) (ms : List (String × JSON)), n.natAbs < 1000000 →
        goMapGet ms "id" = some (JSON.num n) → recordID (some ms) = n.repr)
    ∧ (∀ (ms : List (String × JSON)) (s : String),
        goMapGet ms "id" = some (JSON.str s) → recordID (some ms) = s)
    ∧ (∀ n : Int, n.natAbs < 1000000 →
        goFormat (some (JSON.num n)) = goFormat (some (JSON.str n.repr)))
    ∧ goFormat (some (JSON.num 1000000)) = "1e+06"
    ∧ goFormat (some (JSON.num 9007199254740993))
        = goFormat (some (JSON.num 9007199254740992))
    ∧ getFileRecordByID itemsFS "data" "items" "2"
        = .ok (JSON.obj (JObj.cons "id" (JSON.num 2)
            (JObj.cons "name" (JSON.str "b") JObj.nil))) := by
  have hplain : ∀ n : Int, n.natAbs < 1000000 → goIntFmt n = n.repr := by
    intro n hn
    by_cases h0 : n = 0
    · subst h0; rfl
    · rw [goIntFmt, if_neg h0, if_pos hn]
  refine ⟨fun records id => ?_, fun n ms hn h => ?_, fun ms s h => ?_,
    fun n hn => ?_, by decide, by decide, rfl⟩
  · induction records with
    | nil => rfl
    | cons r rest ih =>
      rw [findMatch, List.find?_cons]
      by_cases h : recordID r = id
      · simp [h]
      · simp only [h, if_false, ih]
        have : (recordID r == id) = false := by simp [h]
        rw [this]
  · rw [recordID, recGet, h]
    exact hplain n hn
  · rw [recordID, recGet, h]; rfl
  · show goIntFmt n = n.repr
    exact hplain n hn

/-- Witness for the amended C2: a six-digit numeric id still matches its
digit string; a small numeric id 3 stringifies as `"3"` does. -/
theorem C2_first_match_float64_stringified_witness :
    findMatch [some [("id", JSON.str "x")]] "x"
        = [some [("id", JSON.str "x")]].find? (fun r => recordID r == "x")
    ∧ recordID (some [("id", JSON.num 999999)]) = (999999 : Int).repr
    ∧ recordID (some [("id", JSON.num 3)]) = (3 : Int).repr
    ∧ recordID (some [("id", JSON.str "3")]) = "3" :=
  ⟨C2_first_match_float64_stringified.1 [some [("id", JSON.str "x")]] "x",
   C2_first_match_float64_stringified.2.1 999999 [("id", JSON.num 999999)]
      (by decide) rfl,
   C2_first_match_float64_stringified.2.1 3 [("id", JSON.num 3)] (by decide) rfl,
   C2_first_match_float64_stringified.2.2.1 [("id", JSON.str "3")] "3" rfl⟩

/-- C3: when the requested id matches no record of the chosen collection
the result is the empty JSON object and no error is signalled — the very
output produced when no member has a non-empty array and when the matched
record is itself the empty object, so the three cases are
indistinguishable. -/
theorem C3_no_match_yields_empty_object :
    (∀ (fd : List (String × GoSlice Record)) (id : String) (records : List Record),
      findCollection fd = some records → (∀ r ∈ records, recordID r ≠ id) →
      recordByIDCore fd id = JSON.obj JObj.nil)
    ∧ (∀ (fd : List (String × GoSlice Record)) (id : String),
        findCollection fd = none → recordByIDCore fd id = JSON.obj JObj.nil)
    ∧ (∀ (fd : List (String × GoSlice Record)) (id : String) (records : List Record),
        findCollection fd = some records → findMatch records id = some (some []) →
        recordByIDCore fd id = JSON.obj JObj.nil)
    ∧ (∀ (fs : FileSys) (dataPath name id content : String) (v : JSON) (fd : FileData),
        ¬name = "" → ¬id = "" →
        getRecords fs (joinPath dataPath (withJSONExt name)) = .ok content →
        parseJSON content = some v → unmarshalFileData v = some fd →
        (∀ records, findCollection (fd.getD []) = some records →
          ∀ r ∈ records, recordID r ≠ id) →
        getFileRecordByID fs dataPath name id = .ok (JSON.obj JObj.nil)) := by
  refine ⟨fun fd id records hc hm => ?_, fun fd id hc => ?_,
    fun fd id records hc hm => ?_, fun fs d n i c v fd hn hi hr hp hu hnm => ?_⟩
  · rw [recordByIDCore, hc]
    show encodeRecordOut (matchedOutput (findMatch records id)) = _
    rw [findMatch_eq_none hm]; rfl
  · rw [recordByIDCore, hc]
  · rw [recordByIDCore, hc]
    show encodeRecordOut (matchedOutput (findMatch records id)) = _
    rw [hm]; rfl
  · rw [getFileRecordByID_ok hn hi hr hp hu, recordByIDCore]
    cases hc : findCollection (fd.getD []) with
    | none => rfl
    | some records =>
      show Except.ok (encodeRecordOut (matchedOutput (findMatch records i))) = _
      rw [findMatch_eq_none (hnm records hc)]; rfl

/-- Witness for C3 on the spec's example file with a nonexistent id. -/
theorem C3_no_match_yields_empty_object_witness :
    getFileRecordByID itemsFS "data" "items" "99" = .ok (JSON.obj JObj.nil) :=
  C3_no_match_yields_empty_object.2.2.2 itemsFS "data" "items" "99" itemsContent _ _
    (by decide) (by decide) rfl rfl rfl (by decide)

/-- C9: a record with no `id` field is not skipped — its absent id
stringifies to `"<nil>"`, so it matches exactly the requested id `"<nil>"`
(where the loop returns it) and never any other requested id (where the
loop moves on to the remaining records). -/
theorem C9_missing_id_stringifies_nil :
    ∀ ms : List (String × JSON), goMapGet ms "id" = none →
      recordID (some ms) = "<nil>"
      ∧ (∀ id, recordID (some ms) = id ↔ id = "<nil>")
      ∧ (∀ rest, findMatch (some ms :: rest) "<nil>" = some (some ms))
      ∧ (∀ id, ¬id = "<nil>" → ∀ rest, findMatch (some ms :: rest) id = findMatch rest id) := by
  intro ms h
  have hrid : recordID (some ms) = "<nil>" := by rw [recordID, recGet, h]; rfl
  refine ⟨hrid, fun id => ⟨fun he => by rw [← he, hrid], fun he => by rw [he, hrid]⟩,
    fun rest => ?_, fun id hid rest => ?_⟩
  · rw [findMatch, if_pos hrid]
  · rw [findMatch, if_neg (by rw [hrid]; exact fun he => hid he.symm)]

/-- Witness for C9: a record carrying only a `name` field. -/
theorem C9_missing_id_stringifies_nil_witness :
    recordID (some [("name", JSON.str "a")]) = "<nil>"
    ∧ findMatch [some [("name", JSON.str "a")]] "3" = findMatch [] "3" :=
  ⟨(C9_missing_id_stringifies_nil [("name", JSON.str "a")] rfl).1,
   (C9_missing_id_stringifies_nil [("name", JSON.str "a")] rfl).2.2.2 "3" (by decide) []⟩

/-! ## Helper lemmas: what the typed decode accepts -/

theorem unmarshalRecord_isSome : ∀ v : JSON, (unmarshalRecord v).isSome = acceptedElem v
  | .null => rfl
  | .bool _ => rfl
  | .num _ => rfl
  | .dec _ => rfl
  | .str _ => rfl
  | .arr _ => rfl
  | .obj ms => by cases h : numbersOKO ms <;> simp [unmarshalRecord, h, acceptedElem]

theorem unmarshalElems_isSome : ∀ es : JList,
    (unmarshalElems es.toList).isSome = acceptedElems es
  | .nil => rfl
  | .cons v rest => by
    rw [JList.toList, acceptedElems, ← unmarshalRecord_isSome v, ← unmarshalElems_isSome rest]
    cases h1 : unmarshalRecord v <;> cases h2 : unmarshalElems rest.toList <;>
      simp [unmarshalElems, h1, h2]

theorem unmarshalSlice_isSome (v : JSON) :
    (unmarshalSlice v).isSome = acceptedSlice v := by
  cases v with
  | arr es =>
    rw [acceptedSlice, ← unmarshalElems_isSome, unmarshalSlice]
    cases unmarshalElems es.toList <;> rfl
  | _ => rfl

theorem unmarshalMembers_isSome : ∀ ms : JObj,
    (unmarshalMembers ms.toList).isSome = acceptedMembers ms
  | .nil => rfl
  | .cons _ v rest => by
    rw [JObj.toList, acceptedMembers, ← unmarshalSlice_isSome v, ← unmarshalMembers_isSome rest]
    cases h1 : unmarshalSlice v <;> cases h2 : unmarshalMembers rest.toList <;>
      simp [unmarshalMembers, h1, h2]

/-- The typed decode of `getFileRecordByID` succeeds exactly on the
accepted shape: null-lenient object-of-arrays-of-objects with every
record-embedded number within float64 range. -/
theorem unmarshalFileData_isSome (v : JSON) :
    (unmarshalFileData v).isSome = acceptedShape v := by
  cases v with
  | obj ms =>
    rw [acceptedShape, ← unmarshalMembers_isSome, unmarshalFileData]
    cases unmarshalMembers ms.toList <;> rfl
  | _ => rfl

theorem acceptedElem_decomp (v : JSON) :
    acceptedElem v = (lenientRecordOK v && elemNumbersOK v) := by
  cases v <;> rfl

theorem acceptedElems_decomp : ∀ es : JList,
    acceptedElems es = (lenientElems es && sliceElemsOK es)
  | .nil => rfl
  | .cons v rest => by
    rw [acceptedElems, acceptedElems_decomp rest, lenientElems, sliceElemsOK,
      acceptedElem_decomp]
    cases lenientRecordOK v <;> cases elemNumbersOK v <;> cases lenientElems rest <;>
      cases sliceElemsOK rest <;> rfl

theorem acceptedSlice_decomp (v : JSON) :
    acceptedSlice v = (lenientSliceOK v && sliceNumbersOK v) := by
  cases v <;> first
    | rfl
    | exact acceptedElems_decomp _

theorem acceptedMembers_decomp : ∀ ms : JObj,
    acceptedMembers ms = (lenientMembers ms && membersNumbersOK ms)
  | .nil => rfl
  | .cons _ v rest => by
    rw [acceptedMembers, acceptedMembers_decomp rest, lenientMembers, membersNumbersOK,
      acceptedSlice_decomp]
    cases lenientSliceOK v <;> cases sliceNumbersOK v <;> cases lenientMembers rest <;>
      cases membersNumbersOK rest <;> rfl

theorem acceptedShape_decomp (v : JSON) :
    acceptedShape v = (lenientShape v && recordsNumbersOK v) := by
  cases v <;> first
    | rfl
    | exact acceptedMembers_decomp _

theorem allObjs_lenient : ∀ es : JList, allObjs es = true → lenientElems es = true
  | .nil, _ => rfl
  | .cons v rest, h => by
    rw [allObjs, Bool.and_eq_true] at h
    rw [lenientElems, Bool.and_eq_true]
    refine ⟨?_, allObjs_lenient rest h.2⟩
    cases v <;> first
      | rfl
      | exact Bool.noConfusion h.1

theorem specMembers_lenient : ∀ ms : JObj, specMembers ms = true →
    lenientMembers ms = true
  | .nil, _ => rfl
  | .cons _ v rest, h => by
    rw [specMembers, Bool.and_eq_true] at h
    rw [lenientMembers, Bool.and_eq_true]
    refine ⟨?_, specMembers_lenient rest h.2⟩
    cases v <;> first
      | rfl
      | exact allObjs_lenient _ h.1
      | exact Bool.noConfusion h.1

/-- C4 as stated is false: the file content `null` is valid JSON and is
not an object of arrays of objects, yet `GetRecordByID` does not fail with
InvalidJSON — `json.Unmarshal` decodes null into the nil map and the
handler returns the empty object. -/
theorem C4_counterexample_null_accepted :
    parseJSON "null" = some JSON.null
    ∧ specShape JSON.null = false
    ∧ getFileRecordByID [("data/a.json", "null")] "data" "a" "1" = .ok (JSON.obj JObj.nil) :=
  ⟨rfl, rfl, rfl⟩

/-- C4 amended: for an existing file, `GetRecordByID` fails with
InvalidJSON exactly when the content is not accepted by the typed decode:
the spec's object-of-arrays-of-objects shape, except that JSON null is
also accepted for the whole object, for a member's array, and for an
array element (decoding to nil), and with every number inside a record
required to be within float64 range (`convertNumber` rejects overflowing
literals such as `1e999`, so `\x7b"k":[\x7b"v":1e999\x7d]\x7d` fails despite
its shape).  The spec's strict shape always satisfies the lenient shape,
a bare top-level array still fails, and the requirement remains strictly
stronger than GetAllRecords', which accepts that same bare array. -/
theorem C4_shape_requirement_lenient :
    (∀ (fs : FileSys) (dataPath name id content : String),
      ¬name = "" → ¬id = "" →
      getRecords fs (joinPath dataPath (withJSONExt name)) = .ok content →
      (getFileRecordByID fs dataPath name id = .error (.invalidJSON (withJSONExt name))
        ↔ ¬∃ v, parseJSON content = some v ∧ acceptedShape v = true))
    ∧ (∀ v, acceptedShape v = (lenientShape v && recordsNumbersOK v))
    ∧ (∀ v, specShape v = true → lenientShape v = true)
    ∧ getFileRecordByID [("d/a.json", "[1,2]")] "d" "a" "1" = .error (.invalidJSON "a.json")
    ∧ getFileRecordByID [("d/a.json", "\x7b\"k\":[\x7b\"v\":1e999\x7d]\x7d")] "d" "a" "1"
        = .error (.invalidJSON "a.json")
    ∧ lenientShape (JSON.obj (JObj.cons "k"
        (JSON.arr (JList.cons (JSON.obj (JObj.cons "v" (JSON.dec "1e999") JObj.nil))
          JList.nil)) JObj.nil)) = true
    ∧ getFileRecords [("d/a.json", "[1,2]")] "d" "a" = .ok "[1,2]" := by
  refine ⟨fun fs d n i c hn hi hr => ?_, fun v => acceptedShape_decomp v, fun v h => ?_,
    rfl, rfl, rfl, rfl⟩
  · rw [getFileRecordByID, if_neg hn, if_neg hi]
    simp only [hr]
    cases hp : parseJSON c with
    | none => simp [hp]
    | some v =>
      cases hu : unmarshalFileData v with
      | none =>
        have hl : acceptedShape v = false := by
          rw [← unmarshalFileData_isSome, hu]; rfl
        simp [hp, hu, hl]
      | some fd =>
        have hl : acceptedShape v = true := by
          rw [← unmarshalFileData_isSome, hu]; rfl
        simp [hp, hu, hl]
  · cases v with
    | obj ms => exact specMembers_lenient ms h
    | _ => simp [specShape] at h

/-- Witness for the amended C4: the bare-array file is refused with
InvalidJSON, by the theorem's characterization. -/
theorem C4_shape_requirement_lenient_witness :
    getFileRecordByID [("d/a.json", "[1,2]")] "d" "a" "1"
      = .error (.invalidJSON (withJSONExt "a")) := by
  apply (C4_shape_requirement_lenient.1 [("d/a.json", "[1,2]")] "d" "a" "1" "[1,2]"
      (by decide) (by decide) rfl).mpr
  rintro ⟨v, hv, hl⟩
  have hA : parseJSON "[1,2]" = some (JSON.arr (JList.cons (JSON.num 1)
      (JList.cons (JSON.num 2) JList.nil))) := rfl
  rw [hA] at hv
  cases hv
  simp [acceptedShape] at hl

/-- C5 as stated is false: `json.Unmarshal` checks more than syntax — the
syntactically valid content `1e999` overflows float64, so `GetAllRecords`
fails with InvalidJSON on it. -/
theorem C5_counterexample_range_check :
    (parseJSON "1e999").isSome = true
    ∧ getFileRecords [("d/a.json", "1e999")] "d" "a" = .error (.invalidJSON "a.json") :=
  ⟨rfl, rfl⟩

/-- C5 amended: for an existing file, `GetAllRecords` succeeds exactly
when `json.Unmarshal` accepts the bytes — syntactically valid JSON (any
value: scalar, array or object) in which every number literal is within
float64 range — and then returns the stored content byte-identically; on
a decode failure it fails with InvalidJSON carrying the file name. -/
theorem C5_get_all_records_passthrough :
    (∀ (fs : FileSys) (dataPath name content : String),
      ¬name = "" →
      getRecords fs (joinPath dataPath (withJSONExt name)) = .ok content →
      (getFileRecords fs dataPath name = .ok content
        ↔ ∃ v, parseJSON content = some v ∧ numbersOK v = true)
      ∧ (unmarshalAny content = none →
          getFileRecords fs dataPath name = .error (.invalidJSON (withJSONExt name))))
    ∧ (parseJSON "[1, 2]").isSome = true
    ∧ (parseJSON "\x7b\"a\":1\x7d").isSome = true
    ∧ (parseJSON "3").isSome = true
    ∧ parseJSON "\x7bnot valid\x7d" = none := by
  refine ⟨fun fs d n c hn hr => ?_, rfl, rfl, rfl, rfl⟩
  have key : ∀ v, unmarshalAny c = some v →
      parseJSON c = some v ∧ numbersOK v = true := by
    intro v hu
    cases hp : parseJSON c with
    | none => simp [unmarshalAny, hp] at hu
    | some w =>
      by_cases hw : numbersOK w = true
      · simp only [unmarshalAny, hp, hw, if_true] at hu
        injection hu with hvw
        subst hvw
        exact ⟨rfl, hw⟩
      · simp [unmarshalAny, hp, hw] at hu
  have key2 : unmarshalAny c = none →
      ¬∃ v, parseJSON c = some v ∧ numbersOK v = true := by
    rintro hu ⟨v, hp, hnum⟩
    simp [unmarshalAny, hp, hnum] at hu
  rw [getFileRecords, if_neg hn]
  simp only [hr]
  cases hu : unmarshalAny c with
  | none =>
    exact ⟨⟨fun h => absurd h (by simp), fun he => absurd he (key2 hu)⟩, fun _ => rfl⟩
  | some v =>
    obtain ⟨hp, hnum⟩ := key v hu
    exact ⟨⟨fun _ => ⟨v, hp, hnum⟩, fun _ => rfl⟩, fun hc => absurd hc (by simp)⟩

/-- Witness for the amended C5 on a file whose content has idiosyncratic
spacing: the raw bytes come back unchanged. -/
theorem C5_get_all_records_passthrough_witness :
    getFileRecords [("d/raw.json", "[1,   2]")] "d" "raw" = .ok "[1,   2]" :=
  (C5_get_all_records_passthrough.1 [("d/raw.json", "[1,   2]")] "d" "raw" "[1,   2]"
      (by decide) rfl).1.mpr
    ⟨JSON.arr (JList.cons (JSON.num 1) (JList.cons (JSON.num 2) JList.nil)), rfl, rfl⟩

/-! ## Helper lemmas: directory listing -/

theorem goSliceList_goAppend {α : Type} (s : GoSlice α) (x : α) :
    goSliceList (goAppend s x) = goSliceList s ++ [x] := by
  cases s <;> rfl

theorem listFiles_foldl (entries : List DirEntry) (acc : GoSlice String) :
    goSliceList (entries.foldl
        (fun files e => if e.isDir then files else goAppend files e.name) acc)
      = goSliceList acc ++ (entries.filter (fun e => !e.isDir)).map DirEntry.name := by
  induction entries generalizing acc with
  | nil => simp
  | cons e rest ih =>
    rw [List.foldl_cons, List.filter_cons]
    by_cases h : e.isDir
    · rw [if_pos h]
      simp [h, ih]
    · rw [if_neg h]
      simp [h, ih, goSliceList_goAppend]

theorem foldl_all_dirs {entries : List DirEntry} (acc : GoSlice String)
    (h : ∀ e ∈ entries, e.isDir = true) :
    entries.foldl (fun files e => if e.isDir then files else goAppend files e.name) acc
      = acc := by
  induction entries with
  | nil => rfl
  | cons e rest ih =>
    rw [List.foldl_cons, if_pos (h e (List.mem_cons_self _ _))]
    exact ih (fun q hq => h q (List.mem_cons_of_mem _ hq))

/-- C7: listing a directory returns exactly the names of its immediate
non-directory entries — dotfiles included, nothing filtered by name or
extension — and (when entry names are distinct, as in a real directory)
never the name of a subdirectory; entries inside subdirectories are never
consulted at all. -/
theorem C7_listing_excludes_directories :
    (∀ (entries : List DirEntry) (files : GoSlice String),
      ListFilesInDirectory (.dir entries) = .ok files →
      goSliceList files = (entries.filter (fun e => !e.isDir)).map DirEntry.name
      ∧ (∀ n, n ∈ goSliceList files ↔ ∃ e ∈ entries, e.isDir = false ∧ e.name = n))
    ∧ (∀ entries : List DirEntry, (entries.map DirEntry.name).Nodup →
        ∀ files : GoSlice String, ListFilesInDirectory (.dir entries) = .ok files →
        ∀ e ∈ entries, e.isDir = true → e.name ∉ goSliceList files) := by
  have key : ∀ (entries : List DirEntry) (files : GoSlice String),
      ListFilesInDirectory (.dir entries) = .ok files →
      goSliceList files = (entries.filter (fun e => !e.isDir)).map DirEntry.name := by
    intro entries files hok
    rw [ListFilesInDirectory] at hok
    cases hok
    rw [listFiles_foldl]
    rfl
  have mem : ∀ (entries : List DirEntry) (files : GoSlice String),
      ListFilesInDirectory (.dir entries) = .ok files →
      ∀ n, n ∈ goSliceList files ↔ ∃ e ∈ entries, e.isDir = false ∧ e.name = n := by
    intro entries files hok n
    rw [key entries files hok]
    simp [List.mem_filter, and_assoc]
  refine ⟨fun entries files hok => ⟨key entries files hok, mem entries files hok⟩,
    fun entries hnd files hok e he hdir hmem => ?_⟩
  obtain ⟨e', he', hd', hn'⟩ := (mem entries files hok e.name).mp hmem
  have : e' = e := List.inj_on_of_nodup_map hnd he' he hn'
  rw [this] at hd'
  rw [hdir] at hd'
  exact Bool.noConfusion hd'

/-- Witness for C7: a directory holding a file, a dotfile and a
subdirectory lists exactly the two files. -/
theorem C7_listing_excludes_directories_witness :
    goSliceList (some ["a.json", ".hidden"])
      = ([⟨"a.json", false⟩, ⟨"sub", true⟩, ⟨".hidden", false⟩].filter
          (fun e => !e.isDir)).map DirEntry.name :=
  (C7_listing_excludes_directories.1
    [⟨"a.json", false⟩, ⟨"sub", true⟩, ⟨".hidden", false⟩] (some ["a.json", ".hidden"]) rfl).1

/-- C10: for an existing directory with no files (empty or holding only
subdirectories) the slice of names stays nil, so the listing endpoint
reports success with count 0 and a `files` value that is JSON null, not an
empty array. -/
theorem C10_empty_listing_files_null :
    ∀ entries : List DirEntry, (∀ e ∈ entries, e.isDir = true) →
      ListFilesInDirectory (.dir entries) = .ok none
      ∧ home (.dir entries) = .ok (JSON.obj (JObj.cons "count" (JSON.num 0)
          (JObj.cons "files" JSON.null
            (JObj.cons "status" (JSON.str "success") JObj.nil)))) := by
  intro entries h
  have hl : ListFilesInDirectory (.dir entries) = .ok none := by
    rw [ListFilesInDirectory, foldl_all_dirs none h]
  refine ⟨hl, ?_⟩
  rw [home, hl]
  rfl

/-- Witness for C10: a directory holding only a subdirectory. -/
theorem C10_empty_listing_files_null_witness :
    home (.dir [⟨"sub", true⟩]) = .ok (JSON.obj (JObj.cons "count" (JSON.num 0)
      (JObj.cons "files" JSON.null
        (JObj.cons "status" (JSON.str "success") JObj.nil)))) :=
  (C10_empty_listing_files_null [⟨"sub", true⟩] (by decide)).2

/-! ## Helper lemmas: godotenv loading -/

theorem lookupEnv_append_single (env : Env) (p : String × String) (k : String) :
    lookupEnv (env ++ [p]) k
      = (lookupEnv env k).or (if p.1 = k then some p.2 else none) := by
  rw [lookupEnv, goMapGet, List.find?_append]
  cases h : env.find? (fun q => q.1 = k) with
  | none =>
    simp only [Option.map_none, Option.none_or, lookupEnv, goMapGet, h]
    by_cases hk : p.1 = k
    · simp [List.find?, hk]
    · simp [List.find?, hk]
  | some q =>
    simp [lookupEnv, goMapGet, h]

theorem godotenv_fold_lookup (d : Env) : ∀ (env : Env) (k : String),
    lookupEnv (d.foldl
        (fun e p => if (lookupEnv e p.1).isSome then e else e ++ [(p.1, p.2)]) env) k
      = (lookupEnv env k).or (goMapGet d k) := by
  induction d with
  | nil => intro env k; simp [goMapGet]
  | cons p rest ih =>
    intro env k
    rw [List.foldl_cons]
    by_cases hp : (lookupEnv env p.1).isSome
    · rw [if_pos hp, ih]
      by_cases hk : p.1 = k
      · subst hk
        obtain ⟨v, hv⟩ := Option.isSome_iff_exists.mp hp
        simp [hv]
      · have : goMapGet (p :: rest) k = goMapGet rest k := by
          simp [goMapGet, List.find?, hk]
        rw [this]
    · rw [if_neg hp, ih, lookupEnv_append_single]
      have hnone : lookupEnv env p.1 = none := Option.not_isSome_iff_eq_none.mp hp
      by_cases hk : p.1 = k
      · subst hk
        rw [hnone]
        have : goMapGet (p :: rest) p.1 = some p.2 := by simp [goMapGet, List.find?]
        simp [this]
      · have : goMapGet (p :: rest) k = goMapGet rest k := by
          simp [goMapGet, List.find?, hk]
        simp [hk, this]

/-- C8 as stated is false at a set-but-empty environment variable: with
`GETTER_PORT` present in the environment with value `""` and a `.env`
file supplying `GETTER_PORT=:9090`, the claim's "otherwise" clause
promises `:9090`, but godotenv does not override a variable that is
already present, so the code returns the default `:8080`. -/
theorem C8_counterexample_set_empty_env :
    getPort [("GETTER_PORT", "")] (some [("GETTER_PORT", ":9090")]) = ":8080"
    ∧ ":8080" ≠ ":9090" :=
  ⟨rfl, by decide⟩

/-- C8 amended: a non-empty `GETTER_PORT` in the environment is returned;
when `GETTER_PORT` is entirely absent from the environment, a `.env` file
supplying a non-empty value yields that value; when it is present but
empty, the `.env` value is never used (godotenv does not override an
existing variable) and the result is `:8080`; with no usable source the
result is `:8080`. -/
theorem C8_port_resolution_precedence :
    (∀ (env : Env) (f : Option Env), ¬osGetenv env "GETTER_PORT" = "" →
      getPort env f = osGetenv env "GETTER_PORT")
    ∧ (∀ (env d : Env) (v : String),
        lookupEnv env "GETTER_PORT" = none → goMapGet d "GETTER_PORT" = some v →
        ¬v = "" → getPort env (some d) = v)
    ∧ (∀ env d : Env, lookupEnv env "GETTER_PORT" = some "" →
        getPort env (some d) = ":8080")
    ∧ (∀ env : Env, lookupEnv env "GETTER_PORT" = none → getPort env none = ":8080")
    ∧ (∀ env d : Env, lookupEnv env "GETTER_PORT" = none →
        goMapGet d "GETTER_PORT" = none → getPort env (some d) = ":8080") := by
  refine ⟨fun env f h => ?_, fun env d v h1 h2 h3 => ?_, fun env d h => ?_,
    fun env h => ?_, fun env d h1 h2 => ?_⟩
  · rw [getPort, if_pos h]
  · simp [getPort, godotenvLoad, osGetenv, godotenv_fold_lookup, h1, h2, h3]
  · simp [getPort, godotenvLoad, osGetenv, godotenv_fold_lookup, h]
  · simp [getPort, godotenvLoad, osGetenv, h]
  · simp [getPort, godotenvLoad, osGetenv, godotenv_fold_lookup, h1, h2]

/-- Witness for the amended C8: environment beats `.env`, and an absent
variable falls back to the `.env` value. -/
theorem C8_port_resolution_precedence_witness :
    getPort [("GETTER_PORT", ":9090")] (some [("GETTER_PORT", ":7070")])
      = osGetenv [("GETTER_PORT", ":9090")] "GETTER_PORT"
    ∧ getPort [("OTHER", "x")] (some [("GETTER_PORT", ":9090")]) = ":9090"
    ∧ getPort [] none = ":8080" :=
  ⟨C8_port_resolution_precedence.1 [("GETTER_PORT", ":9090")]
      (some [("GETTER_PORT", ":7070")]) (by decide),
   C8_port_resolution_precedence.2.1 [("OTHER", "x")] [("GETTER_PORT", ":9090")]
      ":9090" (by decide) (by decide) (by decide),
   C8_port_resolution_precedence.2.2.2.1 [] (by decide)⟩

end Getter
